import Mathlib

/-!
Verification of the lock-free data-structure library `Utilities/lockless.h`.

The C++ classes are shallowly embedded: 32-bit (`u32`) and 64-bit (`u64`)
machine integers become `Nat` with explicit reduction modulo `two32` /
`two64` at every point where the C++ arithmetic can wrap; linked chains of
heap nodes become `List`s; the slot banks of the ring buffers become
functions `Nat → T` indexed modulo the capacity `N`.  All operations are
modelled as pure state transformers, which is faithful for the sequential
(single-thread, or single-producer/single-consumer interleaved) executions
the claims quantify over.
-/

/-- Modulus of 32-bit unsigned arithmetic, `2 ^ 32`. -/
def two32 : Nat := 4294967296

/-- Modulus of 64-bit unsigned arithmetic, `2 ^ 64`. -/
def two64 : Nat := 18446744073709551616

/-! ## `lf_array` (growable block-linked array)

`lf_array<T, N>::operator[]` resolves an index by recursion: an index below
`N` lands in the current block, otherwise the access recurses into the next
block (allocating it when missing) with the index reduced by `N`.  The
function below returns the (block number, slot within block) pair that the
recursion reaches; the `N = 0` branch is unreachable junk (the C++ template
requires `N ≥ 1` for the member array `T m_data[N]` to compile). -/
def lf_array.resolve (N : Nat) (i : Nat) : Nat × Nat :=
  if i < N then
    (0, i)
  else if h : N = 0 then
    (0, i)
  else
    let r := lf_array.resolve N (i - N)
    (r.1 + 1, r.2)
termination_by i
decreasing_by
  simp_wf
  omega

/-! ## `lf_fifo` (counting FIFO control word) -/

/-- Control word of `lf_fifo`: a pair of `u32` counters updated as one
atomic 64-bit unit. -/
structure ctrl_t where
  push : Nat
  pop : Nat
deriving DecidableEq, Repr

/-- Embedding of `lf_fifo::pop_end(count)`: add `count` to `ctrl.pop`
(`u32` wrap-around), reset both counters to zero when `pop` has caught up
with `push`, and return the resulting `pop` value — all inside one
`atomic_op`. -/
def lf_fifo.pop_end (s : ctrl_t) (count : Nat) : ctrl_t × Nat :=
  let p := (s.pop + count) % two32
  if p = s.push then
    (⟨0, 0⟩, 0)
  else
    (⟨s.push, p⟩, p)

/-! ## `lf_hashmap` (open addressing with stride `Size`)

The key table of the underlying `lf_array<pair_t, Size>` is modelled as a
total function `Nat → K` (every slot of the growable array exists and is
default-initialized, so unwritten positions hold the sentinel `K0`).  The
value cells are untouched by `operator[]`; the returned reference is fully
determined by the slot the probe stops at, so the model returns that slot. -/

/-- Reference returned by `lf_hashmap::operator[]`: either the dedicated
default-key slot (`m_default_key_data`) or the value cell of table slot
`pos`. -/
inductive HRef where
  | defaultSlot : HRef
  | tableSlot (pos : Nat) : HRef
deriving DecidableEq, Repr

/-- Key table after the successful CAS `K{} → k` on slot `pos`. -/
def lf_hashmap.claimAt {K : Type} (keys : Nat → K) (pos : Nat) (k : K) : Nat → K :=
  fun q => if q = pos then k else keys q

/-- Probe loop of `lf_hashmap::operator[]` for a non-default key `k`:
at each position, return the slot if its key already equals `k`, otherwise
try the CAS from the sentinel `K0` to `k` (sequentially: succeed exactly
when the slot key is `K0`), otherwise step the position by `Size`.  The
C++ loop has no bound; `fuel` makes the model total, and every theorem
supplies enough fuel for the first matching-or-empty slot. -/
def lf_hashmap.probeClaim {K : Type} [DecidableEq K] (K0 : K) (Size : Nat)
    (keys : Nat → K) (k : K) : Nat → Nat → Option (HRef × (Nat → K))
  | _, 0 => none
  | pos, fuel + 1 =>
    if keys pos = k then
      some (.tableSlot pos, keys)
    else if keys pos = K0 then
      some (.tableSlot pos, lf_hashmap.claimAt keys pos k)
    else
      lf_hashmap.probeClaim K0 Size keys k (pos + Size) fuel

/-- Embedding of `lf_hashmap::operator[]`: a default-constructed key takes
the dedicated bypass slot without touching the table; any other key starts
probing at `hash(k) % Size` with stride `Size`. -/
def lf_hashmap.access {K : Type} [DecidableEq K] (K0 : K) (hash : K → Nat) (Size : Nat)
    (keys : Nat → K) (k : K) (fuel : Nat) : Option (HRef × (Nat → K)) :=
  if k = K0 then
    some (.defaultSlot, keys)
  else
    lf_hashmap.probeClaim K0 Size keys k (hash k % Size) fuel

/-- Probe position `j` hits for key `k` when the slot at
`hash k % Size + j * Size` holds `k` itself or the sentinel `K0`. -/
def lf_hashmap.Hit {K : Type} (K0 : K) (hash : K → Nat) (Size : Nat)
    (keys : Nat → K) (k : K) (j : Nat) : Prop :=
  keys (hash k % Size + j * Size) = k ∨ keys (hash k % Size + j * Size) = K0

/-! ## `lf_spsc` (bounded single-producer single-consumer ring)

Cursors are `u32`; the compile-time assertion requires `(1u << 31) % N == 0`
(so `N` divides `2^31`, hence also `2^32`, and cursor wrap-around is
harmless).  The slot bank `m_data[N]` is a function accessed at indices
reduced modulo `N`; fences order memory and have no sequential effect. -/
structure lf_spsc (T : Type) where
  push : Nat
  pop : Nat
  data : Nat → T

/-- Initial ring: both cursors zero, every slot default-initialized to `d`. -/
def lf_spsc.init {T : Type} (d : T) : lf_spsc T := ⟨0, 0, fun _ => d⟩

/-- Embedding of `lf_spsc::size()`: the `u32` difference `m_push - m_pop`. -/
def lf_spsc.size {T : Type} (s : lf_spsc T) : Nat :=
  (s.push + two32 - s.pop) % two32

/-- Embedding of `lf_spsc::try_push`: fail when `m_push - m_pop >= N`,
otherwise store into slot `m_push % N` and advance `m_push`. -/
def lf_spsc.try_push {T : Type} (N : Nat) (s : lf_spsc T) (v : T) : lf_spsc T × Bool :=
  if s.size ≥ N then
    (s, false)
  else
    (⟨(s.push + 1) % two32, s.pop, fun j => if j = s.push % N then v else s.data j⟩, true)

/-- Embedding of `lf_spsc::try_pop`: fail when `m_push - m_pop` is zero,
otherwise move slot `m_pop % N` out and advance `m_pop`. -/
def lf_spsc.try_pop {T : Type} (N : Nat) (s : lf_spsc T) : lf_spsc T × Option T :=
  if s.size = 0 then
    (s, none)
  else
    (⟨s.push, (s.pop + 1) % two32, s.data⟩, some (s.data (s.pop % N)))

/-- Embedding of `lf_spsc::end_push`: advance `m_push` only when
`m_push - m_pop < N`. -/
def lf_spsc.end_push {T : Type} (N : Nat) (s : lf_spsc T) : lf_spsc T :=
  if s.size < N then
    ⟨(s.push + 1) % two32, s.pop, s.data⟩
  else
    s

/-- Embedding of `lf_spsc::end_pop`: advance `m_pop` only when
`m_push - m_pop > 0`. -/
def lf_spsc.end_pop {T : Type} (s : lf_spsc T) : lf_spsc T :=
  if 0 < s.size then
    ⟨s.push, (s.pop + 1) % two32, s.data⟩
  else
    s

/-- Well-formedness of a ring state: cursors are genuine `u32` values and
the occupancy never exceeds the capacity. -/
def lf_spsc.Inv {T : Type} (N : Nat) (s : lf_spsc T) : Prop :=
  s.push < two32 ∧ s.pop < two32 ∧ s.size ≤ N

/-- Abstract queue content of the ring: the `size` values sitting in slots
`pop % N, (pop+1) % N, …`, oldest first. -/
def lf_spsc.toList {T : Type} (N : Nat) (s : lf_spsc T) : List T :=
  (List.range s.size).map fun i => s.data ((s.pop + i) % N)

/-- One producer/consumer operation on the SPSC ring. -/
inductive SpscOp (T : Type) where
  | push (v : T) : SpscOp T
  | pop : SpscOp T

/-- Run a sequence of `try_push`/`try_pop` operations, collecting the values
accepted by successful pushes and the values delivered by successful pops,
in call order. -/
def lf_spsc.run {T : Type} (N : Nat) (s : lf_spsc T) :
    List (SpscOp T) → lf_spsc T × List T × List T
  | [] => (s, [], [])
  | .push v :: rest =>
    match lf_spsc.try_push N s v with
    | (s1, true) =>
      let t := lf_spsc.run N s1 rest
      (t.1, v :: t.2.1, t.2.2)
    | (s1, false) =>
      let t := lf_spsc.run N s1 rest
      (t.1, t.2.1, t.2.2)
  | .pop :: rest =>
    match lf_spsc.try_pop N s with
    | (s1, some v) =>
      let t := lf_spsc.run N s1 rest
      (t.1, t.2.1, v :: t.2.2)
    | (s1, none) =>
      let t := lf_spsc.run N s1 rest
      (t.1, t.2.1, t.2.2)

/-- States of the SPSC ring reachable from the empty ring by the four
producer/consumer operations. -/
inductive lf_spsc.Reach {T : Type} (N : Nat) (d : T) : lf_spsc T → Prop where
  | init : lf_spsc.Reach N d (lf_spsc.init d)
  | push (s : lf_spsc T) (v : T) :
      lf_spsc.Reach N d s → lf_spsc.Reach N d (lf_spsc.try_push N s v).1
  | pop (s : lf_spsc T) :
      lf_spsc.Reach N d s → lf_spsc.Reach N d (lf_spsc.try_pop N s).1
  | endPush (s : lf_spsc T) :
      lf_spsc.Reach N d s → lf_spsc.Reach N d (lf_spsc.end_push N s)
  | endPop (s : lf_spsc T) :
      lf_spsc.Reach N d s → lf_spsc.Reach N d (lf_spsc.end_pop s)

/-! ## `lf_mpsc` (bounded multi-producer single-consumer ring)

Only the three counters matter for the claims: the inherited `u32` cursors
`m_push`/`m_pop` and the `u64` reservation word `m_lock` whose low half
counts `c_ack` units and whose high half counts `c_rel = 1 << 32` units. -/
structure lf_mpsc where
  push : Nat
  pop : Nat
  lock : Nat
deriving DecidableEq, Repr

/-- Embedding of `lf_mpsc::release(value)`: when `value` is nonzero and
`value % c_rel == value / c_rel`, advance `m_push` (`u32` wrap) by that
common count and CAS the reservation word from `value` to `0`. -/
def lf_mpsc.release (s : lf_mpsc) (value : Nat) : lf_mpsc :=
  if value ≠ 0 ∧ value % two32 = value / two32 then
    ⟨(s.push + value % two32) % two32, s.pop,
      if s.lock = value then 0 else s.lock⟩
  else
    s

/-- Embedding of `lf_mpsc::operator T*`: `fetch_add` one `c_ack` unit onto
the reservation word (the returned `old` value supplies this producer's
offset), then either hand out slot `(m_push + old) % N`, or — on the full
path — roll the `c_ack` unit back with `sub_fetch`, attempt `release` on
the resulting word, and return null.  The result is the new state paired
with `some slotIndex` (non-null) or `none` (null). -/
def lf_mpsc.get_ptr (N : Nat) (s : lf_mpsc) : lf_mpsc × Option Nat :=
  let old := s.lock
  let s1 : lf_mpsc := ⟨s.push, s.pop, (s.lock + 1) % two64⟩
  let pos := s1.push
  if old % N ≥ N ∨ (pos + two32 - s1.pop) % two32 ≥ N - old % N then
    let v := (s1.lock + two64 - 1) % two64
    (lf_mpsc.release ⟨s1.push, s1.pop, v⟩ v, none)
  else
    (s1, some (((pos + old) % two64) % N))

/-- Embedding of `lf_mpsc::end_push`: `add_fetch` one `c_rel` unit and try
to `release` the resulting word. -/
def lf_mpsc.end_push (s : lf_mpsc) : lf_mpsc :=
  let v := (s.lock + two32) % two64
  lf_mpsc.release ⟨s.push, s.pop, v⟩ v

/-- Low 32 bits of a `u64` word: the "ack" count of the reservation word. -/
def lf_mpsc.ackOf (v : Nat) : Nat := v &&& 4294967295

/-- High 32 bits of a `u64` word: the "release" count of the reservation
word. -/
def lf_mpsc.relOf (v : Nat) : Nat := v >>> 32

/-! ## `lf_queue` (unbounded Treiber stack with drain-and-reverse)

The chain hanging off `m_head` is a `List T`, most recently pushed element
first (each `lf_item`'s `m_link` points at the element pushed before it). -/

/-- Pointer-rotation loop body of `lf_queue::reverse`: repeatedly move the
first remaining node (`prev`) to the front of the already-reversed part
(`head`). -/
def lf_queue.revGo {T : Type} : List T → List T → List T
  | [], acc => acc
  | p :: rest, acc => lf_queue.revGo rest (p :: acc)

/-- Embedding of `lf_queue::reverse`: exchange the head chain out (empty
chain gives null) and reverse it from LIFO to FIFO order by pointer
rotation. -/
def lf_queue.reverse {T : Type} (q : List T) : List T :=
  match q with
  | [] => []
  | h :: rest => lf_queue.revGo rest [h]

/-- Embedding of `lf_queue::push`: the new node links to the previous head
and becomes the head. -/
def lf_queue.push {T : Type} (q : List T) (v : T) : List T := v :: q

/-- Iteration of `lf_queue::apply` over the drained, reversed chain:
collect the payloads in invocation order and count them while freeing each
node. -/
def lf_queue.applyGo {T : Type} : List T → List T × Nat
  | [] => ([], 0)
  | x :: xs =>
    let r := lf_queue.applyGo xs
    (x :: r.1, r.2 + 1)

/-- Embedding of `lf_queue::apply(func)`: drain and reverse the chain, then
invoke the function on every element in order.  Returns the invocation
sequence, the count, and the queue left behind (the head was exchanged to
null by the drain). -/
def lf_queue.apply (q : List T) : (List T × Nat) × List T :=
  (lf_queue.applyGo (lf_queue.reverse q), [])

/-! ## `lf_value` (versioned value cell) -/

/-- Versioned cell: `first_data` is the cell's own `m_data` (set at
construction, never reassigned); `history` is the chain of values produced
by `assign`, newest first.  `m_head` points at the newest node, or at the
cell itself when the history is empty. -/
structure lf_value (T : Type) where
  first_data : T
  history : List T
deriving DecidableEq, Repr

/-- Embedding of the `lf_value` constructor: `m_head = this`, `m_data = v`. -/
def lf_value.init {T : Type} (v : T) : lf_value T := ⟨v, []⟩

/-- Embedding of `lf_value::assign`: allocate a node holding the new value,
link it to the current head and CAS it in as the new head. -/
def lf_value.assign {T : Type} (s : lf_value T) (v : T) : lf_value T :=
  ⟨s.first_data, v :: s.history⟩

/-- Embedding of `lf_value::get`: the value of the current head node. -/
def lf_value.get {T : Type} (s : lf_value T) : T :=
  s.history.headD s.first_data

/-- Embedding of `lf_value::first`: the cell's own (construction-time)
value. -/
def lf_value.first {T : Type} (s : lf_value T) : T :=
  s.first_data

/-! ## Auxiliary definitions for the theorems -/

/-- Compile-time requirement of `lf_spsc<T, N>`:
`static_assert(N && (1u << 31) % N == 0)`. -/
def SpscOk (N : Nat) : Prop :=
  0 < N ∧ 2 ^ 31 % N = 0

/-- Concrete key table used to instantiate the hashmap theorem: slot 2
holds the foreign key 9, slot 7 holds the key 7, every other slot holds
the sentinel 0. -/
def hmapKeys0 : Nat → Nat :=
  fun q => if q = 2 then 9 else if q = 7 then 7 else 0

/-! # Theorems -/

/-! ## Helper lemmas -/

theorem lf_queue.revGo_eq {T : Type} :
    ∀ (l acc : List T), lf_queue.revGo l acc = l.reverse ++ acc := by
  intro l
  induction l with
  | nil => intro acc; simp [lf_queue.revGo]
  | cons p rest ih =>
    intro acc
    simp [lf_queue.revGo, ih]

theorem lf_queue.reverse_eq {T : Type} (q : List T) :
    lf_queue.reverse q = q.reverse := by
  cases q with
  | nil => rfl
  | cons h rest => simp [lf_queue.reverse, lf_queue.revGo_eq]

theorem lf_queue.applyGo_eq {T : Type} :
    ∀ l : List T, lf_queue.applyGo l = (l, l.length) := by
  intro l
  induction l with
  | nil => rfl
  | cons x xs ih => simp [lf_queue.applyGo, ih]

theorem lf_queue.foldl_push {T : Type} :
    ∀ (vs q : List T), vs.foldl lf_queue.push q = vs.reverse ++ q := by
  intro vs
  induction vs with
  | nil => intro q; simp
  | cons v vs ih =>
    intro q
    simp [lf_queue.push, ih]

theorem lf_value.foldl_assign {T : Type} :
    ∀ (vs : List T) (s : lf_value T),
      (vs.foldl lf_value.assign s).history = vs.reverse ++ s.history ∧
      (vs.foldl lf_value.assign s).first_data = s.first_data := by
  intro vs
  induction vs with
  | nil => intro s; simp
  | cons v vs ih =>
    intro s
    simpa [lf_value.assign] using ih ⟨s.first_data, v :: s.history⟩

/-! ## C6: `lf_array::operator[]` resolves index `i` to block `i / N`, slot `i % N` -/

/-- C6: for every block capacity `N > 0` and index `i`, the recursive
resolution of `lf_array::operator[]` lands in block number `i / N` at slot
`i % N`; the access never fails (the function is total), and — being a
function of the index alone — repeated accesses at the same index resolve
to the same slot. -/
theorem lf_array_index_resolves (N : Nat) (hN : 0 < N) :
    ∀ i : Nat, lf_array.resolve N i = (i / N, i % N) := by
  intro i
  induction i using Nat.strong_induction_on with
  | _ i ih =>
    rw [lf_array.resolve]
    by_cases hlt : i < N
    · simp [hlt, Nat.div_eq_of_lt hlt, Nat.mod_eq_of_lt hlt]
    · have hne : ¬N = 0 := by omega
      simp only [if_neg hlt, dif_neg hne]
      rw [ih (i - N) (by omega)]
      have h1 : i / N = (i - N) / N + 1 := Nat.div_eq_sub_div hN (by omega)
      have h2 : i % N = (i - N) % N := Nat.mod_eq_sub_mod (by omega)
      rw [h1, h2]

/-- Witness for C6: index 7 with block capacity 3 resolves to block 2,
slot 1. -/
theorem lf_array_index_resolves_witness : lf_array.resolve 3 7 = (2, 1) := by
  rw [lf_array_index_resolves 3 (by decide) 7]

/-! ## C4: `lf_fifo::pop_end` -/

/-- C4 (amended): `pop_end(count)` adds `count` to the pop counter in `u32`
arithmetic and returns the resulting pop counter; it resets both counters
to zero exactly when the new pop counter equals the push counter, and
otherwise leaves the push counter unchanged.  Provided `count ≥ 1` and the
addition does not wrap around 2^32, a returned 0 does signal that the
counters were reset (queue empty); without that proviso a returned 0 can
also arise from wrap-around (see the counterexample). -/
theorem lf_fifo_pop_end_spec (push pop count : Nat) :
    ((lf_fifo.pop_end ⟨push, pop⟩ count).2 = (lf_fifo.pop_end ⟨push, pop⟩ count).1.pop) ∧
    ((lf_fifo.pop_end ⟨push, pop⟩ count).1 = ⟨0, 0⟩ ↔ (pop + count) % two32 = push) ∧
    ((pop + count) % two32 ≠ push →
      (lf_fifo.pop_end ⟨push, pop⟩ count).1 = ⟨push, (pop + count) % two32⟩) ∧
    (1 ≤ count → pop + count < two32 →
      ((lf_fifo.pop_end ⟨push, pop⟩ count).2 = 0 ↔
        (lf_fifo.pop_end ⟨push, pop⟩ count).1 = ⟨0, 0⟩)) := by
  have he : lf_fifo.pop_end ⟨push, pop⟩ count =
      if (pop + count) % two32 = push then (⟨0, 0⟩, 0)
      else (⟨push, (pop + count) % two32⟩, (pop + count) % two32) := rfl
  by_cases h : (pop + count) % two32 = push
  · rw [he, if_pos h]
    exact ⟨rfl, ⟨fun _ => h, fun _ => rfl⟩, fun hc => absurd h hc,
      fun _ _ => ⟨fun _ => rfl, fun _ => rfl⟩⟩
  · rw [he, if_neg h]
    refine ⟨rfl, ?_, fun _ => rfl, ?_⟩
    · simp only [ctrl_t.mk.injEq]
      constructor
      · intro hc
        exact hc.2.trans hc.1.symm
      · intro hc
        exact absurd hc h
    · intro hc hlt
      have hp : (pop + count) % two32 = pop + count := Nat.mod_eq_of_lt hlt
      simp only [ctrl_t.mk.injEq, hp]
      omega

/-- Counterexample for C4 as stated: `pop_end` can return 0 without any
reset having happened.  With `push = 5, pop = 2^32 - 1, count = 1` the pop
counter wraps to 0 while the push counter stays 5 (queue not empty, no
reset); with `push = 5, pop = 0, count = 0` the returned pop counter is 0
while the queue still holds 5 unacknowledged elements. -/
theorem lf_fifo_pop_end_zero_without_reset :
    lf_fifo.pop_end ⟨5, 4294967295⟩ 1 = (⟨5, 0⟩, 0) ∧
    lf_fifo.pop_end ⟨5, 0⟩ 0 = (⟨5, 0⟩, 0) := by
  constructor
  · rfl
  · rfl

/-- Witness for C4 (amended): acknowledging 2 elements at `push = 3,
pop = 1` makes pop catch up with push, so both counters reset and 0 is
returned. -/
theorem lf_fifo_pop_end_spec_witness :
    (lf_fifo.pop_end ⟨3, 1⟩ 2).1 = ⟨0, 0⟩ ∧ (lf_fifo.pop_end ⟨3, 1⟩ 2).2 = 0 := by
  have h := lf_fifo_pop_end_spec 3 1 2
  have h1 : (lf_fifo.pop_end ⟨3, 1⟩ 2).1 = ⟨0, 0⟩ := h.2.1.mpr (by decide)
  refine ⟨h1, ?_⟩
  rw [h.1, h1]

/-! ## C3: `lf_mpsc::operator T*` full-path detection -/

/-- C3 (code bug): with capacity `N = 4`, four `operator T*` calls from the
empty ring succeed and leave the reservation word at 4 ack units with no
release; the ring would become full given those 4 outstanding
reservations, yet a fifth call still returns a non-null pointer — to slot
`(0 + 4) % 4 = 0`, the very slot handed out to the first producer.  The
guard `old % N >= N` in the source can never fire (`old % N < N` by
definition of modulo), so reservation counts at or above `N` escape the
full-ring check. -/
theorem lf_mpsc_get_ptr_overfull_not_null :
    lf_mpsc.get_ptr 4 ⟨0, 0, 0⟩ = (⟨0, 0, 1⟩, some 0) ∧
    lf_mpsc.get_ptr 4 ⟨0, 0, 1⟩ = (⟨0, 0, 2⟩, some 1) ∧
    lf_mpsc.get_ptr 4 ⟨0, 0, 2⟩ = (⟨0, 0, 3⟩, some 2) ∧
    lf_mpsc.get_ptr 4 ⟨0, 0, 3⟩ = (⟨0, 0, 4⟩, some 3) ∧
    lf_mpsc.get_ptr 4 ⟨0, 0, 4⟩ = (⟨0, 0, 5⟩, some 0) := by
  refine ⟨rfl, rfl, rfl, rfl, rfl⟩

/-! ## C10: SPSC boundary commits are guarded no-ops -/

/-- C10: on the SPSC ring, `end_push` on a full ring (`m_push - m_pop ≥ N`)
leaves the state — push cursor and all slots — unchanged, and `end_pop` on
an empty ring (`m_push == m_pop`) leaves the state unchanged: both commits
are silently guarded at the boundary. -/
theorem lf_spsc_boundary_noop {T : Type} (N : Nat) (s : lf_spsc T) :
    (N ≤ s.size → lf_spsc.end_push N s = s) ∧
    (s.size = 0 → lf_spsc.end_pop s = s) := by
  constructor
  · intro h
    unfold lf_spsc.end_push
    rw [if_neg (by omega)]
  · intro h
    unfold lf_spsc.end_pop
    rw [if_neg (by omega)]

/-- Witness for C10: a full ring of capacity 2 (cursors 2 and 0) is
unchanged by `end_push`, and the empty initial ring is unchanged by
`end_pop`. -/
theorem lf_spsc_boundary_noop_witness :
    lf_spsc.end_push 2 (⟨2, 0, fun _ => 0⟩ : lf_spsc Nat) = ⟨2, 0, fun _ => 0⟩ ∧
    lf_spsc.end_pop (lf_spsc.init (0 : Nat)) = lf_spsc.init 0 := by
  constructor
  · exact (lf_spsc_boundary_noop 2 ⟨2, 0, fun _ => 0⟩).1 (by decide)
  · exact (lf_spsc_boundary_noop 2 (lf_spsc.init 0)).2 (by decide)

/-! ## C2: `lf_queue` drains in push order -/

/-- C2: after a single thread pushes `vs` (in list order) into an empty
`lf_queue`, `apply` invokes the function on exactly the elements of `vs`
in the original push order (oldest first), returns the count
`vs.length`, and leaves the queue empty. -/
theorem lf_queue_apply_in_push_order {T : Type} (vs : List T) :
    lf_queue.apply (vs.foldl lf_queue.push []) = ((vs, vs.length), []) := by
  unfold lf_queue.apply
  rw [lf_queue.reverse_eq, lf_queue.foldl_push, List.append_nil,
    List.reverse_reverse, lf_queue.applyGo_eq]

/-! ## C9: `lf_value` latest write wins, first value persists -/

/-- C9: for a cell constructed with `v0`, after any nonempty sequence of
`assign` calls whose last assigned value is `v`, `get()` returns `v` and
`first()` still returns `v0`. -/
theorem lf_value_latest_and_first {T : Type} (v0 v : T) (vs : List T)
    (h : vs.getLast? = some v) :
    (vs.foldl lf_value.assign (lf_value.init v0)).get = v ∧
    (vs.foldl lf_value.assign (lf_value.init v0)).first = v0 := by
  have hh := lf_value.foldl_assign vs (lf_value.init v0)
  constructor
  · rw [lf_value.get, hh.1]
    have hrev : vs.reverse.head? = some v := by
      rw [List.head?_reverse, h]
    cases hr : vs.reverse with
    | nil => rw [hr] at hrev; cases hrev
    | cons a t =>
      rw [hr] at hrev
      simp at hrev
      simp [lf_value.init, hrev]
  · rw [lf_value.first, hh.2]
    rfl

/-- Witness for C9: construct with 1, assign 2 then 3: `get` returns 3 and
`first` returns 1. -/
theorem lf_value_latest_and_first_witness :
    ([2, 3].foldl lf_value.assign (lf_value.init 1)).get = 3 ∧
    ([2, 3].foldl lf_value.assign (lf_value.init 1)).first = 1 :=
  lf_value_latest_and_first 1 3 [2, 3] (by decide)

/-! ## C8: `lf_mpsc::release` -/

theorem lf_mpsc.ackOf_eq_mod (v : Nat) : lf_mpsc.ackOf v = v % two32 := by
  have h := Nat.and_pow_two_sub_one_eq_mod v 32
  have h32 : (2 : Nat) ^ 32 = 4294967296 := by decide
  rw [h32] at h
  simpa [lf_mpsc.ackOf, two32] using h

theorem lf_mpsc.relOf_eq_div (v : Nat) : lf_mpsc.relOf v = v / two32 := by
  have h := Nat.shiftRight_eq_div_pow v 32
  have h32 : (2 : Nat) ^ 32 = 4294967296 := by decide
  rw [h32] at h
  simpa [lf_mpsc.relOf, two32] using h

/-- C8: `release(value)` advances the shared push cursor (by `u32`
arithmetic) by the common count and resets the reservation word to zero —
the reset through a CAS conditioned on the observed word, so it happens
exactly when the current word still equals `value` — precisely when
`value` is nonzero and its release count (high 32 bits) equals its ack
count (low 32 bits); in every other case the state is left unchanged. -/
theorem lf_mpsc_release_spec (s : lf_mpsc) (value : Nat) :
    (value ≠ 0 → lf_mpsc.relOf value = lf_mpsc.ackOf value →
      lf_mpsc.release s value =
        ⟨(s.push + lf_mpsc.ackOf value) % two32, s.pop,
          if s.lock = value then 0 else s.lock⟩) ∧
    (value = 0 ∨ lf_mpsc.relOf value ≠ lf_mpsc.ackOf value →
      lf_mpsc.release s value = s) := by
  rw [lf_mpsc.relOf_eq_div, lf_mpsc.ackOf_eq_mod]
  constructor
  · intro h0 heq
    unfold lf_mpsc.release
    rw [if_pos ⟨h0, heq.symm⟩]
  · intro h
    unfold lf_mpsc.release
    rw [if_neg]
    intro hc
    rcases h with h | h
    · exact hc.1 h
    · exact h hc.2.symm

/-- Witness for C8: the word `3 * 2^32 + 3` (3 released, 3 acked) advances
`push` from 5 to 8 and resets the matching lock word to zero; the word 7
(7 acked, 0 released) changes nothing. -/
theorem lf_mpsc_release_spec_witness :
    lf_mpsc.release ⟨5, 0, 12884901891⟩ 12884901891 = ⟨8, 0, 0⟩ ∧
    lf_mpsc.release ⟨5, 0, 7⟩ 7 = ⟨5, 0, 7⟩ := by
  constructor
  · have h := (lf_mpsc_release_spec ⟨5, 0, 12884901891⟩ 12884901891).1
      (by decide) (by decide)
    rw [h]
    rfl
  · exact (lf_mpsc_release_spec ⟨5, 0, 7⟩ 7).2 (Or.inr (by decide))

/-! ## C5: `lf_hashmap::operator[]` probe behaviour -/

theorem lf_hashmap.probeClaim_spec {K : Type} [DecidableEq K] (K0 : K) (Size : Nat)
    (keys : Nat → K) (k : K) :
    ∀ (fuel pos j0 : Nat), j0 < fuel →
      (keys (pos + j0 * Size) = k ∨ keys (pos + j0 * Size) = K0) →
      (∀ j, j < j0 → keys (pos + j * Size) ≠ k ∧ keys (pos + j * Size) ≠ K0) →
      lf_hashmap.probeClaim K0 Size keys k pos fuel =
        some (.tableSlot (pos + j0 * Size),
          if keys (pos + j0 * Size) = k then keys
          else lf_hashmap.claimAt keys (pos + j0 * Size) k) := by
  intro fuel
  induction fuel with
  | zero =>
    intro pos j0 hf
    exact absurd hf (by omega)
  | succ f ih =>
    intro pos j0 hf hhit hmin
    cases j0 with
    | zero =>
      simp only [Nat.zero_mul, Nat.add_zero] at hhit ⊢
      unfold lf_hashmap.probeClaim
      by_cases hk : keys pos = k
      · rw [if_pos hk, if_pos hk]
      · have h0 : keys pos = K0 := hhit.resolve_left hk
        rw [if_neg hk, if_pos h0, if_neg hk]
    | succ j =>
      have hstep := hmin 0 (by omega)
      simp only [Nat.zero_mul, Nat.add_zero] at hstep
      unfold lf_hashmap.probeClaim
      rw [if_neg hstep.1, if_neg hstep.2]
      have harr : pos + Size + j * Size = pos + (j + 1) * Size := by ring
      have hres := ih (pos + Size) j (by omega)
        (by rw [harr]; exact hhit)
        (by
          intro j' hj'
          have := hmin (j' + 1) (by omega)
          have harr' : pos + Size + j' * Size = pos + (j' + 1) * Size := by ring
          rw [harr']
          exact this)
      rw [hres, harr]

/-- C5: for a default-constructed key, `lf_hashmap::operator[]` returns the
dedicated default-slot reference without touching the key table; for any
other key `k` it probes positions `hash(k) % Size, +Size, +2*Size, …` in
order and stops at the first position `j0` whose slot key equals `k`
(returning that slot with the table unchanged) or holds the default
sentinel (claiming the slot by the CAS `K{} → k` and returning it). -/
theorem lf_hashmap_access_spec {K : Type} [DecidableEq K] (K0 : K) (hash : K → Nat)
    (Size : Nat) (keys : Nat → K) (k : K) (fuel j0 : Nat)
    (hk : k ≠ K0) (hhit : lf_hashmap.Hit K0 hash Size keys k j0)
    (hmin : ∀ j, j < j0 → ¬lf_hashmap.Hit K0 hash Size keys k j)
    (hfuel : j0 < fuel) :
    lf_hashmap.access K0 hash Size keys k fuel =
      some (.tableSlot (hash k % Size + j0 * Size),
        if keys (hash k % Size + j0 * Size) = k then keys
        else lf_hashmap.claimAt keys (hash k % Size + j0 * Size) k) ∧
    lf_hashmap.access K0 hash Size keys K0 fuel = some (.defaultSlot, keys) := by
  constructor
  · unfold lf_hashmap.access
    rw [if_neg hk]
    exact lf_hashmap.probeClaim_spec K0 Size keys k fuel (hash k % Size) j0 hfuel hhit
      (by
        intro j hj
        have := hmin j hj
        unfold lf_hashmap.Hit at this
        exact ⟨fun hc => this (Or.inl hc), fun hc => this (Or.inr hc)⟩)
  · unfold lf_hashmap.access
    rw [if_pos rfl]

/-- Witness for C5: with sentinel 0, identity hash and stride 4, looking up
key 6 in the table `hmapKeys0` (slot 2 occupied by the foreign key 9)
probes slot 2 first, skips it, and claims the empty slot 6; looking up the
default key 0 returns the bypass slot with the table untouched. -/
theorem lf_hashmap_access_spec_witness :
    lf_hashmap.access 0 (fun k => k) 4 hmapKeys0 6 3 =
      some (.tableSlot 6, lf_hashmap.claimAt hmapKeys0 6 6) ∧
    lf_hashmap.access 0 (fun k => k) 4 hmapKeys0 0 3 = some (.defaultSlot, hmapKeys0) := by
  have h := lf_hashmap_access_spec 0 (fun k => k) 4 hmapKeys0 6 3 1
    (by decide)
    (by unfold lf_hashmap.Hit; right; rfl)
    (by
      intro j hj
      have hj0 : j = 0 := by omega
      subst hj0
      unfold lf_hashmap.Hit
      intro hc
      rcases hc with hc | hc <;> exact absurd hc (by decide))
    (by decide)
  have h1 := h.1
  have hpos : (fun k : Nat => k) 6 % 4 + 1 * 4 = 6 := by decide
  rw [hpos] at h1
  rw [if_neg (by decide)] at h1
  exact ⟨h1, h.2⟩

/-! ## SPSC ring: arithmetic and invariant lemmas -/

theorem SpscOk.pos {N : Nat} (h : SpscOk N) : 0 < N := h.1

theorem SpscOk.dvd31 {N : Nat} (h : SpscOk N) : N ∣ 2147483648 := by
  have := Nat.dvd_iff_mod_eq_zero.mpr (show (2 : Nat) ^ 31 % N = 0 from h.2)
  simpa using this

theorem SpscOk.le31 {N : Nat} (h : SpscOk N) : N ≤ 2147483648 :=
  Nat.le_of_dvd (by decide) h.dvd31

theorem SpscOk.dvd32 {N : Nat} (h : SpscOk N) : N ∣ two32 :=
  h.dvd31.trans (by decide)

theorem lf_spsc.size_incr {T : Type} (s : lf_spsc T) (d' : Nat → T)
    (h1 : s.push < two32) (h2 : s.pop < two32) (h : s.size + 1 < two32) :
    lf_spsc.size (⟨(s.push + 1) % two32, s.pop, d'⟩ : lf_spsc T) = s.size + 1 := by
  simp only [lf_spsc.size, two32] at *
  omega

theorem lf_spsc.size_decr {T : Type} (s : lf_spsc T) (d' : Nat → T)
    (h1 : s.push < two32) (h2 : s.pop < two32) (h : 0 < s.size) :
    lf_spsc.size (⟨s.push, (s.pop + 1) % two32, d'⟩ : lf_spsc T) = s.size - 1 := by
  simp only [lf_spsc.size, two32] at *
  omega

theorem lf_spsc.push_decomp {T : Type} (s : lf_spsc T)
    (h1 : s.push < two32) (h2 : s.pop < two32) :
    s.push = (s.pop + s.size) % two32 := by
  simp only [lf_spsc.size, two32] at *
  omega

theorem lf_spsc.push_slot {T : Type} (N : Nat) (s : lf_spsc T) (hdvd : N ∣ two32)
    (h1 : s.push < two32) (h2 : s.pop < two32) :
    s.push % N = (s.pop + s.size) % N := by
  conv_lhs => rw [lf_spsc.push_decomp s h1 h2]
  exact Nat.mod_mod_of_dvd _ hdvd

theorem lf_spsc.slot_ne {N i sz : Nat} (hi : i < sz) (hsz : sz < N) (p : Nat) :
    (p + i) % N ≠ (p + sz) % N := by
  intro hc
  have h1 : i % N = sz % N := Nat.ModEq.add_left_cancel' p hc
  rw [Nat.mod_eq_of_lt (by omega), Nat.mod_eq_of_lt hsz] at h1
  omega

theorem lf_spsc.try_push_fail {T : Type} (N : Nat) (s : lf_spsc T) (v : T)
    (h : N ≤ s.size) : lf_spsc.try_push N s v = (s, false) := by
  unfold lf_spsc.try_push
  rw [if_pos h]

theorem lf_spsc.try_pop_fail {T : Type} (N : Nat) (s : lf_spsc T)
    (h : s.size = 0) : lf_spsc.try_pop N s = (s, none) := by
  unfold lf_spsc.try_pop
  rw [if_pos h]

theorem lf_spsc.try_push_succ {T : Type} (N : Nat) (s : lf_spsc T) (v : T) (hN : SpscOk N)
    (hInv : lf_spsc.Inv N s) (hlt : s.size < N) :
    lf_spsc.try_push N s v =
      (⟨(s.push + 1) % two32, s.pop, fun j => if j = s.push % N then v else s.data j⟩, true) ∧
    lf_spsc.Inv N (lf_spsc.try_push N s v).1 ∧
    lf_spsc.toList N (lf_spsc.try_push N s v).1 = lf_spsc.toList N s ++ [v] := by
  obtain ⟨h1, h2, h3⟩ := hInv
  have hle : N ≤ 2147483648 := hN.le31
  have heq : lf_spsc.try_push N s v =
      (⟨(s.push + 1) % two32, s.pop, fun j => if j = s.push % N then v else s.data j⟩, true) := by
    unfold lf_spsc.try_push
    rw [if_neg (by omega)]
  have hszlt : s.size + 1 < two32 := by
    simp only [two32] at *
    omega
  have hsz := lf_spsc.size_incr s (fun j => if j = s.push % N then v else s.data j) h1 h2 hszlt
  have hslot := lf_spsc.push_slot N s hN.dvd32 h1 h2
  refine ⟨heq, ?_, ?_⟩
  · rw [heq]
    exact ⟨Nat.mod_lt _ (by decide), h2, by rw [hsz]; omega⟩
  · rw [heq]
    show lf_spsc.toList N (⟨(s.push + 1) % two32, s.pop,
      fun j => if j = s.push % N then v else s.data j⟩ : lf_spsc T) = _
    unfold lf_spsc.toList
    rw [hsz, List.range_succ, List.map_append]
    congr 1
    · apply List.map_congr_left
      intro i hi
      rw [List.mem_range] at hi
      have hne : (s.pop + i) % N ≠ s.push % N := by
        rw [hslot]
        exact lf_spsc.slot_ne hi hlt s.pop
      simp only [hne, if_false]
    · have hpe : (s.pop + s.size) % N = s.push % N := hslot.symm
      simp only [List.map_cons, List.map_nil, hpe]
      simp

theorem lf_spsc.try_pop_succ {T : Type} (N : Nat) (s : lf_spsc T) (hN : SpscOk N)
    (hInv : lf_spsc.Inv N s) (hpos : 0 < s.size) :
    lf_spsc.try_pop N s = (⟨s.push, (s.pop + 1) % two32, s.data⟩, some (s.data (s.pop % N))) ∧
    lf_spsc.Inv N (lf_spsc.try_pop N s).1 ∧
    lf_spsc.toList N s = s.data (s.pop % N) :: lf_spsc.toList N (lf_spsc.try_pop N s).1 := by
  obtain ⟨h1, h2, h3⟩ := hInv
  have heq : lf_spsc.try_pop N s =
      (⟨s.push, (s.pop + 1) % two32, s.data⟩, some (s.data (s.pop % N))) := by
    unfold lf_spsc.try_pop
    rw [if_neg (by omega)]
  have hsz := lf_spsc.size_decr s s.data h1 h2 hpos
  refine ⟨heq, ?_, ?_⟩
  · rw [heq]
    exact ⟨h1, Nat.mod_lt _ (by decide), by rw [hsz]; omega⟩
  · rw [heq]
    show lf_spsc.toList N s =
      s.data (s.pop % N) :: lf_spsc.toList N (⟨s.push, (s.pop + 1) % two32, s.data⟩ : lf_spsc T)
    obtain ⟨m, hm⟩ : ∃ m, s.size = m + 1 := ⟨s.size - 1, by omega⟩
    unfold lf_spsc.toList
    rw [hsz, hm]
    simp only [Nat.add_sub_cancel]
    rw [List.range_succ_eq_map, List.map_cons, List.map_map]
    have hhead : s.data ((s.pop + 0) % N) = s.data (s.pop % N) := by rw [Nat.add_zero]
    rw [hhead]
    congr 1
    refine List.map_congr_left ?_
    intro i _
    simp only [Function.comp_apply]
    have hmod : ((s.pop + 1) % two32 + i) % N = (s.pop + 1 + i) % N :=
      Nat.ModEq.add_right i (Nat.ModEq.of_dvd hN.dvd32 (Nat.mod_modEq (s.pop + 1) two32))
    have hadd : s.pop + Nat.succ i = s.pop + 1 + i := by omega
    rw [hmod, hadd]

theorem lf_spsc.init_inv {T : Type} (N : Nat) (d : T) : lf_spsc.Inv N (lf_spsc.init d) := by
  refine ⟨?_, ?_, ?_⟩
  · show (0 : Nat) < two32
    decide
  · show (0 : Nat) < two32
    decide
  · simp [lf_spsc.size, lf_spsc.init, two32]

theorem lf_spsc.toList_init {T : Type} (N : Nat) (d : T) :
    lf_spsc.toList N (lf_spsc.init d) = [] := by
  simp [lf_spsc.toList, lf_spsc.size, lf_spsc.init, two32]

theorem lf_spsc.reach_inv {T : Type} (N : Nat) (d : T) (s : lf_spsc T) (hN : SpscOk N)
    (h : lf_spsc.Reach N d s) : lf_spsc.Inv N s := by
  induction h with
  | init => exact lf_spsc.init_inv N d
  | push s v _ ih =>
    by_cases hlt : s.size < N
    · exact (lf_spsc.try_push_succ N s v hN ih hlt).2.1
    · rw [lf_spsc.try_push_fail N s v (by omega)]
      exact ih
  | pop s _ ih =>
    by_cases hpos : 0 < s.size
    · exact (lf_spsc.try_pop_succ N s hN ih hpos).2.1
    · rw [lf_spsc.try_pop_fail N s (by omega)]
      exact ih
  | endPush s _ ih =>
    unfold lf_spsc.end_push
    by_cases hlt : s.size < N
    · rw [if_pos hlt]
      obtain ⟨h1, h2, _⟩ := ih
      have hszlt : s.size + 1 < two32 := by
        have := hN.le31
        simp only [two32] at *
        omega
      refine ⟨Nat.mod_lt _ (by decide), h2, ?_⟩
      rw [lf_spsc.size_incr s s.data h1 h2 hszlt]
      omega
    · rw [if_neg hlt]
      exact ih
  | endPop s _ ih =>
    unfold lf_spsc.end_pop
    by_cases hpos : 0 < s.size
    · rw [if_pos hpos]
      obtain ⟨h1, h2, h3⟩ := ih
      refine ⟨h1, Nat.mod_lt _ (by decide), ?_⟩
      rw [lf_spsc.size_decr s s.data h1 h2 hpos]
      omega
    · rw [if_neg hpos]
      exact ih

/-! ## C1: SPSC FIFO order -/

theorem lf_spsc.run_fifo {T : Type} (N : Nat) (hN : SpscOk N) :
    ∀ (ops : List (SpscOp T)) (s : lf_spsc T), lf_spsc.Inv N s →
      lf_spsc.Inv N (lf_spsc.run N s ops).1 ∧
      lf_spsc.toList N s ++ (lf_spsc.run N s ops).2.1 =
        (lf_spsc.run N s ops).2.2 ++ lf_spsc.toList N (lf_spsc.run N s ops).1 := by
  intro ops
  induction ops with
  | nil =>
    intro s hs
    exact ⟨hs, by simp [lf_spsc.run]⟩
  | cons op rest ih =>
    intro s hs
    cases op with
    | push v =>
      by_cases hlt : s.size < N
      · obtain ⟨heq, hInv', hlist⟩ := lf_spsc.try_push_succ N s v hN hs hlt
        rw [heq] at hInv' hlist
        dsimp only at hInv' hlist
        obtain ⟨ih1, ih2⟩ := ih _ hInv'
        simp only [lf_spsc.run, heq]
        refine ⟨ih1, ?_⟩
        rw [List.append_cons, ← hlist]
        exact ih2
      · have heq := lf_spsc.try_push_fail N s v (by omega)
        obtain ⟨ih1, ih2⟩ := ih s hs
        simp only [lf_spsc.run, heq]
        exact ⟨ih1, ih2⟩
    | pop =>
      by_cases hpos : 0 < s.size
      · obtain ⟨heq, hInv', hlist⟩ := lf_spsc.try_pop_succ N s hN hs hpos
        rw [heq] at hInv' hlist
        dsimp only at hInv' hlist
        obtain ⟨ih1, ih2⟩ := ih _ hInv'
        simp only [lf_spsc.run, heq]
        refine ⟨ih1, ?_⟩
        rw [hlist]
        simp only [List.cons_append]
        rw [ih2]
      · have heq := lf_spsc.try_pop_fail N s (by omega)
        obtain ⟨ih1, ih2⟩ := ih s hs
        simp only [lf_spsc.run, heq]
        exact ⟨ih1, ih2⟩

/-- C1: running any sequence of `try_push`/`try_pop` operations from the
empty SPSC ring, the values accepted by successful pushes are exactly the
values delivered by successful pops followed by the values still queued in
the ring, in order — so the delivered sequence is a prefix of the accepted
sequence, the i-th successful pop returns the i-th accepted value, and
once the ring is drained the two sequences are equal (FIFO). -/
theorem lf_spsc_fifo {T : Type} (N : Nat) (d : T) (ops : List (SpscOp T)) (hN : SpscOk N) :
    (lf_spsc.run N (lf_spsc.init d) ops).2.1 =
      (lf_spsc.run N (lf_spsc.init d) ops).2.2 ++
        lf_spsc.toList N (lf_spsc.run N (lf_spsc.init d) ops).1 := by
  have h := (lf_spsc.run_fifo N hN ops (lf_spsc.init d) (lf_spsc.init_inv N d)).2
  rwa [lf_spsc.toList_init, List.nil_append] at h

/-- Witness for C1: a ring of capacity 2 with the operation sequence
push 10, push 20, pop, push 30, pop, pop. -/
theorem lf_spsc_fifo_witness :
    (lf_spsc.run 2 (lf_spsc.init 0) [.push 10, .push 20, .pop, .push 30, .pop, .pop]).2.1 =
      (lf_spsc.run 2 (lf_spsc.init 0) [.push 10, .push 20, .pop, .push 30, .pop, .pop]).2.2 ++
        lf_spsc.toList 2
          (lf_spsc.run 2 (lf_spsc.init 0) [.push 10, .push 20, .pop, .push 30, .pop, .pop]).1 :=
  lf_spsc_fifo 2 0 [.push 10, .push 20, .pop, .push 30, .pop, .pop] ⟨by decide, by decide⟩

/-! ## C7: SPSC failure conditions -/

theorem lf_spsc.try_push_false_iff {T : Type} (N : Nat) (s : lf_spsc T) (v : T)
    (hle : lf_spsc.size s ≤ N) :
    ((lf_spsc.try_push N s v).2 = false ↔ lf_spsc.size s = N) := by
  unfold lf_spsc.try_push
  by_cases h : lf_spsc.size s ≥ N
  · rw [if_pos h]
    simp only []
    constructor
    · intro _
      omega
    · intro _
      trivial
  · rw [if_neg h]
    simp only []
    constructor
    · intro hc
      cases hc
    · intro hc
      omega

theorem lf_spsc.try_push_false_frame {T : Type} (N : Nat) (s : lf_spsc T) (v : T)
    (h : (lf_spsc.try_push N s v).2 = false) : (lf_spsc.try_push N s v).1 = s := by
  unfold lf_spsc.try_push at h ⊢
  by_cases hc : lf_spsc.size s ≥ N
  · rw [if_pos hc]
  · rw [if_neg hc] at h
    cases h

theorem lf_spsc.try_pop_none_iff {T : Type} (N : Nat) (s : lf_spsc T) :
    ((lf_spsc.try_pop N s).2 = none ↔ lf_spsc.size s = 0) := by
  unfold lf_spsc.try_pop
  by_cases h : lf_spsc.size s = 0
  · rw [if_pos h]
    simp only []
    exact ⟨fun _ => h, fun _ => trivial⟩
  · rw [if_neg h]
    simp only []
    constructor
    · intro hc
      cases hc
    · intro hc
      exact absurd hc h

theorem lf_spsc.try_pop_none_frame {T : Type} (N : Nat) (s : lf_spsc T)
    (h : (lf_spsc.try_pop N s).2 = none) : (lf_spsc.try_pop N s).1 = s := by
  unfold lf_spsc.try_pop at h ⊢
  by_cases hc : lf_spsc.size s = 0
  · rw [if_pos hc]
  · rw [if_neg hc] at h
    cases h

/-- C7: in every state of the SPSC ring reachable from empty by
`try_push`/`try_pop`/`end_push`/`end_pop`, `try_push` returns false if and
only if `size() = N` (leaving the ring unchanged in that case), and
`try_pop` returns none (false) if and only if `size() = 0` (likewise
leaving the ring unchanged). -/
theorem lf_spsc_try_fail_iff {T : Type} (N : Nat) (d : T) (s : lf_spsc T) (v : T)
    (hN : SpscOk N) (hs : lf_spsc.Reach N d s) :
    ((lf_spsc.try_push N s v).2 = false ↔ lf_spsc.size s = N) ∧
    ((lf_spsc.try_push N s v).2 = false → (lf_spsc.try_push N s v).1 = s) ∧
    ((lf_spsc.try_pop N s).2 = none ↔ lf_spsc.size s = 0) ∧
    ((lf_spsc.try_pop N s).2 = none → (lf_spsc.try_pop N s).1 = s) := by
  have hInv := lf_spsc.reach_inv N d s hN hs
  exact ⟨lf_spsc.try_push_false_iff N s v hInv.2.2,
    lf_spsc.try_push_false_frame N s v,
    lf_spsc.try_pop_none_iff N s,
    lf_spsc.try_pop_none_frame N s⟩

/-- Witness for C7: the empty ring of capacity 1 is reachable (it is the
initial state); there `try_push` succeeds (size 0 ≠ 1) and `try_pop` fails
(size 0). -/
theorem lf_spsc_try_fail_iff_witness :
    ((lf_spsc.try_push 1 (lf_spsc.init (0 : Nat)) 5).2 = false ↔
      lf_spsc.size (lf_spsc.init (0 : Nat)) = 1) ∧
    ((lf_spsc.try_push 1 (lf_spsc.init (0 : Nat)) 5).2 = false →
      (lf_spsc.try_push 1 (lf_spsc.init (0 : Nat)) 5).1 = lf_spsc.init 0) ∧
    ((lf_spsc.try_pop 1 (lf_spsc.init (0 : Nat))).2 = none ↔
      lf_spsc.size (lf_spsc.init (0 : Nat)) = 0) ∧
    ((lf_spsc.try_pop 1 (lf_spsc.init (0 : Nat))).2 = none →
      (lf_spsc.try_pop 1 (lf_spsc.init (0 : Nat))).1 = lf_spsc.init 0) :=
  lf_spsc_try_fail_iff 1 0 (lf_spsc.init 0) 5 ⟨by decide, by decide⟩ lf_spsc.Reach.init
